import Mathlib

/-!
Verification of the luna code-chunking engine (`src/index/src/chunk.rs` and
`src/core/src/code_chunk.rs`) against its natural-language specification.

Shallow embedding conventions:
* Rust byte strings (`&[u8]`, and `&str` viewed through byte offsets) are
  `List Nat`; `src[a..b]` is `sliceBytes src a b`.
* Rust `String` values that are only compared/appended (paths, repos, reasons)
  are Lean `String`.
* The tokenizer (`tokenizers::Tokenizer`, an external crate) is a record of its
  two consumed operations `encode` and `id_to_token`; `encode` failure is
  `none`.
* The scope-graph provider (the `intelligence` crate, which is not included
  under `src/`) is abstracted as the list of top-level scope ranges that
  `top_level_scopes` returns; parse failure or a missing root is the empty
  list (`unwrap_or_default` in the source).
* The `loop` in `by_tokens_in_token_range` is modelled with explicit fuel;
  `none` means the fuel ran out, i.e. the Rust loop has not terminated within
  that many iterations.
-/

namespace Luna

/-- `src[a..b]` on byte strings: the bytes at indices `a ≤ i < b`. -/
def sliceBytes (src : List Nat) (a b : Nat) : List Nat :=
  (src.take b).drop a

/-- UTF-8 bytes of a Lean string, as `Nat`s (Rust `str::as_bytes`). -/
def utf8Bytes (s : String) : List Nat :=
  (s.data.map (fun c => (String.utf8EncodeChar c).map UInt8.toNat)).flatten

/-- Byte indices of `'\n'` (byte 10) in `src` (Rust `str::match_indices('\n')`). -/
def newlinePositions (src : List Nat) : List Nat :=
  (src.enum.filter (fun p => p.2 == 10)).map Prod.fst

/-- `core::text_range::Point` — the `text_range` module of the `core` crate is
not included under `src/`; the fields are exactly those constructed by
`chunk.rs::point` (`byte`, `column`, `line`). -/
structure Point where
  byte : Nat
  column : Nat
  line : Nat
deriving Repr, DecidableEq

/-- Modelled from the spec: `core::text_range::TextRange` (module not under
`src/`); "Scope nodes carry a byte+line TextRange{start, end}". -/
structure TextRange where
  start : Point
  «end» : Point
deriving Repr, DecidableEq

/-- Modelled from the spec: `TextRange::size()` — the byte length of the range
(§4.2 compares `range.size()` against `max_chunk_bytes`). -/
def TextRange.size (r : TextRange) : Nat :=
  r.«end».byte - r.start.byte

/-- `core::code_chunk::IndexChunk`; `text` is a byte string. -/
structure IndexChunk where
  path : String
  start_byte : Nat
  end_byte : Nat
  start_line : Nat
  end_line : Nat
  text : List Nat
deriving Repr, DecidableEq

/-- `core::code_chunk::ContextChunk`; `snippet` is a byte string, `reason` a
Lean string. -/
structure ContextChunk where
  path : String
  «alias» : Nat
  snippet : List Nat
  start_line : Nat
  end_line : Nat
  reason : String
deriving Repr, DecidableEq

/-- `core::code_chunk::OverlapStrategy`. The `f64` fraction of `Partial` is
modelled as an exact rational. -/
inductive OverlapStrategy where
  | ByLines (n : Nat)
  | Partial (part : ℚ)
deriving Repr, DecidableEq

/-- `OverlapStrategy::next_subdivision`: `ByLines` backs off by
`max_tokens - 1`, `Partial(part)` by `round(max_tokens * part)` (cast to
`usize`, hence `Int.toNat`), both clamped to at least 1. -/
def OverlapStrategy.next_subdivision (s : OverlapStrategy) (max_tokens : Nat) : Nat :=
  (match s with
   | .ByLines _ => max_tokens - 1
   | .Partial part => (round ((max_tokens : ℚ) * part)).toNat).max 1

/-- `core::code_chunk::IndexChunkOptions`. -/
structure IndexChunkOptions where
  min_chunk_tokens : Nat
  max_chunk_tokens : Nat
  overlap : OverlapStrategy
  fallback_lines : Nat
deriving Repr, DecidableEq

/-- `core::code_chunk::RefillOptions`. -/
structure RefillOptions where
  fallback_window_lines : Nat
deriving Repr, DecidableEq

/-- `core::code_chunk::IndexChunkBuildError`. -/
inductive IndexChunkBuildError where
  | InvalidInput
deriving Repr, DecidableEq

/-- `ContextChunk::dedup_key`: `(path, start_line, end_line)`. -/
def ContextChunk.dedup_key (c : ContextChunk) : String × Nat × Nat :=
  (c.path, c.start_line, c.end_line)

/-- Lexicographic comparison on dedup keys, i.e. the `Ord` instance of the
Rust tuple `(String, usize, usize)` used by the `BTreeMap` and by the final
`sort_by` in `dedup_context_chunks`. Rust compares `String`s bytewise, which
on valid UTF-8 agrees with the lexicographic code-point order of the
character lists compared here. -/
def keyLt (a b : String × Nat × Nat) : Prop :=
  a.1.data < b.1.data ∨
    (a.1 = b.1 ∧ (a.2.1 < b.2.1 ∨ (a.2.1 = b.2.1 ∧ a.2.2 < b.2.2)))

instance (a b : String × Nat × Nat) : Decidable (keyLt a b) := by
  unfold keyLt; infer_instance

/-- The `and_modify` closure of `dedup_context_chunks`: merge the reason of a
later chunk `c` into the kept chunk `existing`. -/
def mergeReason (existing c : ContextChunk) : ContextChunk :=
  if c.reason ≠ "" ∧ existing.reason ≠ c.reason then
    { existing with
      reason := (if existing.reason ≠ "" then existing.reason ++ "; " else existing.reason)
                ++ c.reason }
  else existing

/-- One `uniq.entry(key).and_modify(..).or_insert(c)` step, with the
`BTreeMap<(String, usize, usize), ContextChunk>` modelled as an association
list kept strictly sorted by `keyLt`. -/
def insertMerge (m : List ((String × Nat × Nat) × ContextChunk))
    (k : String × Nat × Nat) (c : ContextChunk) :
    List ((String × Nat × Nat) × ContextChunk) :=
  match m with
  | [] => [(k, c)]
  | (k', c') :: rest =>
    if keyLt k k' then (k, c) :: (k', c') :: rest
    else if k = k' then (k', mergeReason c' c) :: rest
    else (k', c') :: insertMerge rest k c

/-- Stable insertion into a key-sorted chunk list (one step of the
`result.sort_by(key cmp)` call). -/
def insertByKey (c : ContextChunk) : List ContextChunk → List ContextChunk
  | [] => [c]
  | d :: rest =>
    if keyLt c.dedup_key d.dedup_key then c :: d :: rest else d :: insertByKey c rest

/-- `result.sort_by(|a, b| key(a).cmp(&key(b)))` as a stable insertion sort. -/
def sortByKey : List ContextChunk → List ContextChunk
  | [] => []
  | c :: rest => insertByKey c (sortByKey rest)

/-- The alias-renumbering loop (`for (i, c) in ... enumerate { c.alias = i }`),
starting from index `i`. -/
def renumberFrom (i : Nat) : List ContextChunk → List ContextChunk
  | [] => []
  | c :: rest => { c with «alias» := i } :: renumberFrom (i + 1) rest

/-- `core::code_chunk::dedup_context_chunks`: fold into the key-sorted map,
take the values, sort by the same key, renumber aliases from 0. -/
def dedup_context_chunks (chunks : List ContextChunk) : List ContextChunk :=
  let uniq := chunks.foldl (fun m c => insertMerge m c.dedup_key c) []
  renumberFrom 0 (sortByKey (uniq.map Prod.snd))

instance {ε α : Type} [DecidableEq ε] [DecidableEq α] : DecidableEq (Except ε α) :=
  fun x y =>
    match x, y with
    | .ok a, .ok b =>
      if h : a = b then isTrue (by rw [h])
      else isFalse (fun hc => h (Except.ok.inj hc))
    | .error a, .error b =>
      if h : a = b then isTrue (by rw [h])
      else isFalse (fun hc => h (Except.error.inj hc))
    | .ok _, .error _ => isFalse (fun hc => Except.noConfusion hc)
    | .error _, .ok _ => isFalse (fun hc => Except.noConfusion hc)

/-- The tokenizer's `encode` output: token ids and byte-offset pairs
(`Encoding::get_ids` / `Encoding::get_offsets`). -/
structure Encoding where
  ids : List Nat
  offsets : List (Nat × Nat)
deriving Repr, DecidableEq

/-- The external `tokenizers::Tokenizer`, restricted to the two operations the
engine consumes (spec §6): `encode` (failure = `none`) and `id_to_token`
(token printed form as bytes). -/
structure Tok where
  encode : List Nat → Option Encoding
  idToToken : Nat → Option (List Nat)

/-- `chunk.rs::compute_line_starts`: offset 0, one-past each `'\n'`, and a
trailing sentinel `src.len()`. -/
def compute_line_starts (src : List Nat) : List Nat :=
  (0 :: (newlinePositions src).map (· + 1)) ++ [src.length]

/-- `chunk.rs::byte_range_for_lines`. `line_starts` is never empty at the call
sites (it always starts with 0), so the `line_starts[len - 1]` fallback is
modelled by `getLastD 0`. -/
def byte_range_for_lines (line_starts : List Nat) (start_line0 end_line0 : Nat) : Nat × Nat :=
  let start := line_starts.getD start_line0 0
  let «end» := line_starts.getD (end_line0 + 1) (line_starts.getLastD 0)
  (start, «end»)

/-- `src[..byte].rfind('\n')`: index of the last newline byte before `byte`. -/
def lastNewlinePos (l : List Nat) : Option Nat :=
  match l.reverse.findIdx? (fun b => b == 10) with
  | some j => some (l.length - 1 - j)
  | none => none

/-- `chunk.rs::point`: line from a `(last_line, last_byte)` cursor by counting
newlines in `src[last_byte..byte]`, column from the last newline before
`byte`. -/
def point (src : List Nat) (byte last_line last_byte : Nat) : Point :=
  let line := (sliceBytes src last_byte byte).countP (fun b => b == 10) + last_line
  let column :=
    match lastNewlinePos (src.take byte) with
    | some last_nl => byte - last_nl
    | none => byte
  { byte := byte, column := column, line := line }

/-- The `while left < right` loop of `chunk.rs::lower_bound_by`, with explicit
fuel. Each iteration strictly shrinks `right - left`, so fuel `l.length`
(supplied by `lower_bound_by`) always suffices. -/
def lowerBoundAux (l : List (Nat × Nat)) (pred : (Nat × Nat) → Bool) :
    Nat → Nat → Nat → Nat
  | 0, left, _ => left
  | fuel + 1, left, right =>
    if left < right then
      let mid := left + (right - left) / 2
      if pred (l.getD mid (0, 0)) then lowerBoundAux l pred fuel left mid
      else lowerBoundAux l pred fuel (mid + 1) right
    else left

/-- `chunk.rs::lower_bound_by`: binary search for the first index satisfying
`pred`. -/
def lower_bound_by (l : List (Nat × Nat)) (pred : (Nat × Nat) → Bool) : Nat :=
  lowerBoundAux l pred l.length 0 l.length

/-- `chunk.rs::token_range_for_byte_range`: first token whose end offset
exceeds `start_byte` through the first token whose start offset reaches
`end_byte`; `none` for empty inputs or an empty mapped range. -/
def token_range_for_byte_range (offsets : List (Nat × Nat))
    (start_byte end_byte : Nat) : Option (Nat × Nat) :=
  if end_byte ≤ start_byte ∨ offsets = [] then none
  else
    let start := lower_bound_by offsets (fun o => decide (start_byte < o.2))
    let stop := lower_bound_by offsets (fun o => decide (end_byte ≤ o.1))
    if stop ≤ start then none else some (start, stop)

/-- The offsets trim of `index_chunks` (lines 121-126): drop the final offset
pair when its first component is 0 (trailing special token). -/
def trimOffsets (offsets_all : List (Nat × Nat)) : List (Nat × Nat) :=
  let offsets_len := offsets_all.length - 1
  if (offsets_all[offsets_len]?).map Prod.fst = some 0 then offsets_all.take offsets_len
  else offsets_all

/-- The ids trim of `index_chunks` (lines 128-130):
`ids_all[..min(offsets.len() + 1, ids_all.len())]`. -/
def idsTrim (e : Encoding) : List Nat :=
  e.ids.take (Nat.min ((trimOffsets e.offsets).length + 1) e.ids.length)

/-- `chunk.rs::make_index_chunk_by_bytes`. -/
def make_index_chunk_by_bytes (path : String) (src : List Nat)
    (start_byte end_byte : Nat) : IndexChunk :=
  if end_byte ≤ start_byte then
    { path := path, start_byte := start_byte, end_byte := end_byte,
      start_line := 0, end_line := 0, text := [] }
  else
    let s := point src start_byte 0 0
    let e := point src end_byte 0 0
    { path := path, start_byte := start_byte, end_byte := end_byte,
      start_line := s.line, end_line := e.line,
      text := sliceBytes src start_byte end_byte }

/-- `chunk.rs::add_token_range`: push the chunk for token span `o`
(inclusive-exclusive) unless its byte range is empty, and advance the
`(last_line, last_byte)` cursor. Returns the new chunk list and cursor.
`offsets[o.start]` is always in bounds at the call site; modelled with
`getD`. -/
def add_token_range (chunks : List IndexChunk) (path : String) (src : List Nat)
    (offsets : List (Nat × Nat)) (o : Nat × Nat) (last_line last_byte : Nat) :
    List IndexChunk × Nat × Nat :=
  let start_byte := (offsets.getD o.1 (0, 0)).1
  let end_byte :=
    match offsets[o.2]? with
    | some p => p.1
    | none => src.length
  if end_byte ≤ start_byte then (chunks, last_line, last_byte)
  else
    let s := point src start_byte last_line last_byte
    let e := point src end_byte last_line last_byte
    (chunks ++ [{ path := path, start_byte := start_byte, end_byte := end_byte,
                  start_line := s.line, end_line := e.line,
                  text := sliceBytes src start_byte end_byte }],
     s.line, s.byte)

/-- `Iterator::step_by(size)` on a list, with explicit fuel (the list length,
supplied by `stride`, always suffices since each step consumes at least one
element). -/
def strideAux (size : Nat) : Nat → List (Nat × Nat) → List (Nat × Nat)
  | 0, _ => []
  | _, [] => []
  | fuel + 1, x :: xs => x :: strideAux size fuel (xs.drop (size - 1))

/-- Every `size`-th element of `l`, starting with the first. -/
def stride (size : Nat) (l : List (Nat × Nat)) : List (Nat × Nat) :=
  strideAux size l.length l

/-- `chunk.rs::by_lines_index_chunks`: enumerate offset 0 plus the newline
indices, pair each `size`-strided boundary with the next (the final window
ends at `src.len() - 1`), keep non-empty byte ranges. -/
def by_lines_index_chunks (path : String) (src : List Nat) (size : Nat) :
    List IndexChunk :=
  if size = 0 then []
  else
    let ends := (0 :: newlinePositions src).enum
    if ends = [] then []
    else
      let last := src.length - 1
      let last_line := (ends.getLastD (0, 0)).1
      let strided := stride size ends
      let pairs := strided.zip (strided.drop 1 ++ [(last_line, last)])
      (pairs.filter (fun pr => pr.1.2 < pr.2.2)).map
        (fun pr =>
          { path := path, start_byte := pr.1.2, end_byte := pr.2.2,
            start_line := pr.1.1, end_line := pr.2.1,
            text := sliceBytes src pr.1.2 pr.2.2 })

/-- `src[offsets[i].0..offsets[i + 1].0].contains('\n')` — the newline test in
the token-splitting loop. -/
def gapHasNewline (src : List Nat) (offsets : List (Nat × Nat)) (i : Nat) : Bool :=
  (sliceBytes src (offsets.getD i (0, 0)).1 (offsets.getD (i + 1) (0, 0)).1).contains 10

/-- `ids.get(i + 1).and_then(id_to_token).is_none_or(|s| !s.starts_with("##"))`
— true when the next token is not a sub-word continuation (or out of
bounds). -/
def isSplitBoundary (tok : Tok) (ids : List Nat) (i : Nat) : Bool :=
  match ids[i + 1]? with
  | none => true
  | some id =>
    match tok.idToToken id with
    | none => true
    | some s => !([35, 35].isPrefixOf s)

/-- Rust `(a..b).find(pred)`: smallest `i` with `a ≤ i < b` and `pred i`. -/
def rangeFind (a b : Nat) (p : Nat → Bool) : Option Nat :=
  (List.range' a (b - a)).find? p

/-- Rust `(a..b).rfind(pred)`: largest `i` with `a ≤ i < b` and `pred i`. -/
def rangeRFind (a b : Nat) (p : Nat → Bool) : Option Nat :=
  (List.range' a (b - a)).reverse.find? p

/-- The `end_limit` choice of the splitting loop: the true end when within
reach, else the backward newline search from `next_limit` down to
`start + max_newline_tokens`, else the backward sub-word-boundary search down
to `start + max_boundary_tokens`, else `next_limit` as-is. -/
def chooseEndLimit (src : List Nat) (tok : Tok) (ids : List Nat)
    (offsets : List (Nat × Nat)) (max_newline_tokens max_boundary_tokens : Nat)
    (start next_limit offsets_last : Nat) : Nat :=
  if offsets_last ≤ next_limit then offsets_last
  else
    match rangeRFind (start + max_newline_tokens) next_limit
        (gapHasNewline src offsets) with
    | some next_newline => next_newline
    | none =>
      match rangeRFind (start + max_boundary_tokens) next_limit
          (isSplitBoundary tok ids) with
      | some next_boundary => next_boundary
      | none => next_limit

/-- The overlap computation of the next `start`: the newline-containing token
nearest to `mid` (forward into `[mid, end_limit)`, backward from `mid` down to
`start + diff/2`, the closer one winning, the forward one on ties), else the
first non-continuation boundary at or after `mid`, else `mid` itself. -/
def chooseNextStart (src : List Nat) (tok : Tok) (ids : List Nat)
    (offsets : List (Nat × Nat)) (start diff mid end_limit : Nat) : Nat :=
  let next_newline_diff := rangeFind mid end_limit (gapHasNewline src offsets)
  let prev_newline_diff :=
    (rangeRFind (start + diff / 2) mid (gapHasNewline src offsets)).map (· + 1)
  match next_newline_diff, prev_newline_diff with
  | some n, none => n
  | none, some p => p
  | some n, some p => if n - mid < mid - p then n else p
  | none, none => (rangeFind mid end_limit (isSplitBoundary tok ids)).getD mid

/-- One iteration of the `loop` of `chunk.rs::by_tokens_in_token_range`;
state is `(start, last_line, last_byte, chunks)`, `lo` is
`token_range.start` (the clamp floor) and `offsets_last` is
`token_range.end - 1`. `.inl chunks` is a `return`, `.inr state` continues
the loop. -/
def byTokensStep (path : String) (src : List Nat) (tok : Tok) (ids : List Nat)
    (offsets : List (Nat × Nat)) (min_tokens max_tokens : Nat)
    (strategy : OverlapStrategy) (lo offsets_last : Nat) :
    Nat × Nat × Nat × List IndexChunk →
      List IndexChunk ⊕ Nat × Nat × Nat × List IndexChunk
  | (start, last_line, last_byte, chunks) =>
    if offsets_last ≤ start then .inl chunks
    else
      let next_limit := Nat.min (start + max_tokens) offsets_last
      let end_limit := chooseEndLimit src tok ids offsets (max_tokens * 3 / 4)
        (max_tokens * 7 / 8) start next_limit offsets_last
      let token_len := end_limit - start
      let allow_small := end_limit = offsets_last
      let st2 :=
        if min_tokens ≤ token_len ∨ allow_small then
          add_token_range chunks path src offsets (start, end_limit + 1) last_line last_byte
        else (chunks, last_line, last_byte)
      if end_limit = offsets_last then .inl st2.1
      else
        let diff := strategy.next_subdivision (end_limit - start)
        let mid0 := start + diff
        let mid := if end_limit ≤ mid0 then end_limit - 1 else mid0
        let start2 :=
          Nat.max (chooseNextStart src tok ids offsets start diff mid end_limit) lo
        if offsets_last ≤ start2 then .inl st2.1
        else .inr (start2, st2.2.1, st2.2.2, st2.1)

/-- The `loop` of `chunk.rs::by_tokens_in_token_range`: iterate
`byTokensStep` with explicit fuel; `none` models non-termination within
`fuel` iterations. -/
def byTokensLoop (path : String) (src : List Nat) (tok : Tok) (ids : List Nat)
    (offsets : List (Nat × Nat)) (min_tokens max_tokens : Nat)
    (strategy : OverlapStrategy) (lo offsets_last : Nat) :
    Nat → Nat × Nat × Nat × List IndexChunk → Option (List IndexChunk)
  | 0, _ => none
  | fuel + 1, st =>
    match byTokensStep path src tok ids offsets min_tokens max_tokens strategy lo
        offsets_last st with
    | .inl chunks => some chunks
    | .inr st' =>
      byTokensLoop path src tok ids offsets min_tokens max_tokens strategy lo
        offsets_last fuel st'

/-- `chunk.rs::by_tokens_in_token_range`: guard clauses, then the splitting
loop. -/
def by_tokens_in_token_range (fuel : Nat) (path : String) (src : List Nat)
    (tok : Tok) (ids : List Nat) (offsets : List (Nat × Nat))
    (min_tokens max_tokens : Nat) (strategy : OverlapStrategy)
    (token_range : Nat × Nat) :
    Option (Except IndexChunkBuildError (List IndexChunk)) :=
  if offsets = [] then some (.ok [])
  else if token_range.2 ≤ token_range.1 ∨ offsets.length < token_range.2 then
    some (.ok [])
  else if max_tokens = 0 then some (.error .InvalidInput)
  else
    (byTokensLoop path src tok ids offsets min_tokens max_tokens strategy
      token_range.1 (token_range.2 - 1) fuel (token_range.1, 0, 0, [])).map .ok

/-- `const DEDUCT_SPECIAL_TOKENS: usize = 2`. -/
def DEDUCT_SPECIAL_TOKENS : Nat := 2

/-- The `for (_, r) in top_scopes` loop of `index_chunks` (lines 156-201):
skip empty byte or token ranges, emit one whole-scope chunk when the token
length fits the budget, otherwise split by token budget, degrading that scope
to full-file line-based chunks if the splitter reports an error. -/
def processScopes (fuel : Nat) (path : String) (src : List Nat) (tok : Tok)
    (ids : List Nat) (offsets : List (Nat × Nat)) (min_tokens max_tokens : Nat)
    (strategy : OverlapStrategy) (fallback_lines : Nat) :
    List TextRange → Option (List IndexChunk)
  | [] => some []
  | r :: rest =>
    if r.«end».byte ≤ r.start.byte then
      processScopes fuel path src tok ids offsets min_tokens max_tokens strategy
        fallback_lines rest
    else
      match token_range_for_byte_range offsets r.start.byte r.«end».byte with
      | none =>
        processScopes fuel path src tok ids offsets min_tokens max_tokens strategy
          fallback_lines rest
      | some token_range =>
        let token_len := token_range.2 - token_range.1
        if token_len ≤ max_tokens then
          if r.start.byte < r.«end».byte then
            (processScopes fuel path src tok ids offsets min_tokens max_tokens
              strategy fallback_lines rest).map
              (make_index_chunk_by_bytes path src r.start.byte r.«end».byte :: ·)
          else
            processScopes fuel path src tok ids offsets min_tokens max_tokens
              strategy fallback_lines rest
        else
          match by_tokens_in_token_range fuel path src tok ids offsets min_tokens
              max_tokens strategy token_range with
          | none => none
          | some (.ok chunks) =>
            (processScopes fuel path src tok ids offsets min_tokens max_tokens
              strategy fallback_lines rest).map (chunks ++ ·)
          | some (.error _) =>
            (processScopes fuel path src tok ids offsets min_tokens max_tokens
              strategy fallback_lines rest).map
              (by_lines_index_chunks path src fallback_lines ++ ·)

/-- `chunk.rs::index_chunks`. `top_scopes` stands for the ranges produced by
the external scope-graph chain (`unwrap_or_default` makes parse failure the
empty list); `fuel` bounds the splitting loops, `none` modelling
non-termination. -/
def index_chunks (fuel : Nat) (repo path : String) (src : List Nat)
    (top_scopes : List TextRange) (tok : Tok) (opt : IndexChunkOptions) :
    Option (List IndexChunk) :=
  match tok.encode src with
  | none => some (by_lines_index_chunks path src opt.fallback_lines)
  | some encoding =>
    let offsets := trimOffsets encoding.offsets
    let ids := idsTrim encoding
    let min_tokens := opt.min_chunk_tokens
    match tok.encode (utf8Bytes (repo ++ "\t" ++ path ++ "\n")) with
    | none => some (by_lines_index_chunks path src opt.fallback_lines)
    | some prefix_tokens =>
      let prefix_len := prefix_tokens.ids.length
      if opt.max_chunk_tokens ≤ DEDUCT_SPECIAL_TOKENS + prefix_len then
        some (by_lines_index_chunks path src opt.fallback_lines)
      else
        let max_tokens := opt.max_chunk_tokens - DEDUCT_SPECIAL_TOKENS - prefix_len
        let scopeOut :=
          if top_scopes.isEmpty then some []
          else
            processScopes fuel path src tok ids offsets min_tokens max_tokens
              opt.overlap opt.fallback_lines top_scopes
        match scopeOut with
        | none => none
        | some out =>
          if out.isEmpty then
            match by_tokens_in_token_range fuel path src tok ids offsets min_tokens
                max_tokens opt.overlap (0, offsets.length) with
            | none => none
            | some (.ok chunks) => some chunks
            | some (.error _) => some (by_lines_index_chunks path src opt.fallback_lines)
          else some out

/-- The per-hit body of `chunk.rs::refill_chunks`: smallest enclosing
top-level scope, else a line window centred on the hit's start line. -/
def refillOne (path : String) (src : List Nat) (top_scopes : List TextRange)
    (line_starts : List Nat) (total_lines : Nat) (opt : RefillOptions)
    (hit : IndexChunk) : ContextChunk :=
  let best := top_scopes.foldl
    (fun best r =>
      if r.start.byte ≤ hit.start_byte ∧ hit.end_byte ≤ r.«end».byte then
        match best with
        | none => some r
        | some cur => if r.size < cur.size then some r else some cur
      else best)
    none
  match best with
  | some r =>
    { path := path, «alias» := 0,
      snippet := sliceBytes src r.start.byte r.«end».byte,
      start_line := r.start.line, end_line := r.«end».line,
      reason := "refill from enclosing top-level scope" }
  | none =>
    let hit_line0 := hit.start_line
    let half := opt.fallback_window_lines / 2
    let start0 := hit_line0 - half
    let end0 := Nat.min (hit_line0 + half) (total_lines - 1)
    let b := byte_range_for_lines line_starts start0 end0
    let snippet := if b.1 < b.2 then sliceBytes src b.1 b.2 else []
    { path := path, «alias» := 0, snippet := snippet,
      start_line := start0, end_line := end0,
      reason := "refill fallback window" }

/-- `chunk.rs::refill_chunks`. Parse failure is fatal in the source
(propagated before any chunk is built), so the embedding takes the extracted
`top_scopes` of a successfully parsed source as input. -/
def refill_chunks (path : String) (src : List Nat) (top_scopes : List TextRange)
    (hits : List IndexChunk) (opt : RefillOptions) : List ContextChunk :=
  let line_starts := compute_line_starts src
  let total_lines := line_starts.length - 1
  renumberFrom 0
    (hits.map (refillOne path src top_scopes line_starts total_lines opt))

/-! ## C9: the trailing-offset trim -/

/-- C9 counterexample: with offsets `[(3,4), (0,5)]` the final pair is
dropped by `index_chunks`'s trim although it is `(0,5)`, not `(0,0)` — the
code tests only the first component of the last offset, not the whole pair. -/
theorem c9_trim_counterexample :
    trimOffsets [(3, 4), (0, 5)] ≠ [(3, 4), (0, 5)] ∧
    ([((3 : Nat), (4 : Nat)), (0, 5)].getLast? ≠ some (0, 0)) := by decide

/-- C9 (amended): `index_chunks` drops the final offset pair if and only if
the offsets list is non-empty and the **first component** of its last pair is
0; the second component is not inspected. -/
theorem c9_trim_drops_iff_last_fst_zero (l : List (Nat × Nat)) :
    trimOffsets l = if l.getLast?.map Prod.fst = some 0 then l.dropLast else l := by
  unfold trimOffsets
  rw [List.getLast?_eq_getElem?, List.dropLast_eq_take]

/-! ## C1: termination of the token-splitting loop -/

/-- A source on which the splitting loop hangs: `"a\nb\nc\n"`. -/
def hangSrc : List Nat := [97, 10, 98, 10, 99, 10]

/-- One single-character token per letter; every inter-token gap contains a
newline. -/
def hangOffsets : List (Nat × Nat) := [(0, 1), (2, 3), (4, 5)]

def hangIds : List Nat := [1, 2, 3]

/-- A tokenizer whose `id_to_token` is never consulted successfully. -/
def hangTok : Tok := ⟨fun _ => none, fun _ => none⟩

/-- With `max_tokens = 1`, `min_tokens = 1`, one iteration of the splitting
loop on `hangSrc` maps the state `(start, cursor, chunks) = (0, 0, 0, [])` to
itself: `max_newline_tokens = 0`, so the backward newline search returns
`end_limit = 0 = start`, the emitted-chunk guard fails, `mid` collapses to
`end_limit - 1 = 0`, and every candidate for the next `start` is 0 again. -/
theorem hangStep :
    byTokensStep "p" hangSrc hangTok hangIds hangOffsets 1 1 (.ByLines 0) 0 2
      (0, 0, 0, []) = .inr (0, 0, 0, []) := by decide

/-- The loop never terminates from that state, whatever the fuel. -/
theorem hangLoop (fuel : Nat) :
    byTokensLoop "p" hangSrc hangTok hangIds hangOffsets 1 1 (.ByLines 0) 0 2
      fuel (0, 0, 0, []) = none := by
  induction fuel with
  | zero => rfl
  | succ n ih => rw [byTokensLoop, hangStep]; exact ih

/-- C1 is violated by the code: on `hangSrc` with `min_tokens = 1`,
`max_tokens = 1` and token range `[0, 3)`, the `start` index of
`by_tokens_in_token_range`'s loop is recomputed as 0 on every iteration, so
the loop never terminates (the fuel-indexed model returns `none` for every
fuel). The spec's termination invariant — `start` must strictly increase
every iteration — does not hold. -/
theorem c1_by_tokens_nonterminating (fuel : Nat) :
    by_tokens_in_token_range fuel "p" hangSrc hangTok hangIds hangOffsets 1 1
      (.ByLines 0) (0, 3) = none := by
  unfold by_tokens_in_token_range
  rw [if_neg (by decide), if_neg (by decide), if_neg (by decide)]
  show (byTokensLoop "p" hangSrc hangTok hangIds hangOffsets 1 1 (.ByLines 0)
    0 2 fuel (0, 0, 0, [])).map Except.ok = none
  rw [hangLoop]
  rfl

/-! ## C6: reason merging in dedup -/

/-- Rust `str::contains` for a string pattern: naive substring search. -/
def subSearch : List Char → List Char → Bool
  | [], p => p.isEmpty
  | c :: t, p => p.isPrefixOf (c :: t) || subSearch t p

/-- `haystack.contains(needle)` on Lean strings. -/
def containsSubstr (haystack needle : String) : Bool :=
  subSearch haystack.data needle.data

/-- C6 counterexample: two chunks share the key, the second's reason `"x"`
**is** a substring of the accumulated reason `"x y"`, yet
`dedup_context_chunks` still appends it — the code only compares the two
reasons for (in)equality and performs no substring check. -/
theorem c6_dedup_counterexample :
    (dedup_context_chunks
        [⟨"p", 0, [], 0, 0, "x y"⟩, ⟨"p", 1, [], 0, 0, "x"⟩]).map
        (fun c => c.reason) = ["x y; x"] ∧
    containsSubstr "x y" "x" = true ∧
    (⟨"p", 0, [], 0, 0, "x y"⟩ : ContextChunk).dedup_key =
      (⟨"p", 1, [], 0, 0, "x"⟩ : ContextChunk).dedup_key := by decide

/-! ## C4: fallbacks of index_chunks -/

/-- C4: `index_chunks` returns exactly the line-based fallback when encoding
the source fails, when encoding the `"{repo}\t{path}\n"` prefix fails, or
when the budget underflows (`max_chunk_tokens <= 2 + prefix_len`); no error is
propagated. -/
theorem c4_index_chunks_degrades (fuel : Nat) (repo path : String)
    (src : List Nat) (top_scopes : List TextRange) (tok : Tok)
    (opt : IndexChunkOptions)
    (h : tok.encode src = none ∨
         tok.encode (utf8Bytes (repo ++ "\t" ++ path ++ "\n")) = none ∨
         ∃ p, tok.encode (utf8Bytes (repo ++ "\t" ++ path ++ "\n")) = some p ∧
              opt.max_chunk_tokens ≤ DEDUCT_SPECIAL_TOKENS + p.ids.length) :
    index_chunks fuel repo path src top_scopes tok opt =
      some (by_lines_index_chunks path src opt.fallback_lines) := by
  unfold index_chunks
  rcases h with h | h | ⟨p, hp, hb⟩
  · rw [h]
  · cases hsrc : tok.encode src with
    | none => rfl
    | some enc => rw [h]
  · cases hsrc : tok.encode src with
    | none => rfl
    | some enc =>
      rw [hp]
      simp only [if_pos hb]

/-- C4 witness: a tokenizer that always fails to encode triggers the
line-based fallback on a concrete file. -/
theorem c4_witness :
    index_chunks 3 "r" "f.rs" [97, 10, 98] [] ⟨fun _ => none, fun _ => none⟩
        ⟨1, 16, .ByLines 0, 1⟩ =
      some (by_lines_index_chunks "f.rs" [97, 10, 98] 1) :=
  c4_index_chunks_degrades 3 "r" "f.rs" [97, 10, 98] []
    ⟨fun _ => none, fun _ => none⟩ ⟨1, 16, .ByLines 0, 1⟩ (Or.inl rfl)

/-! ## C3: byte coverage of the line-based fallback -/

/-- C3 counterexample: on the two-byte source `"ab"` with `size = 1`, the
single produced chunk is `[0, 1)`; byte 1 (`< len = 2`) is covered by no
chunk — the final window ends at `src.len() - 1`, not `src.len()`. -/
theorem c3_coverage_counterexample :
    ([97, 98] : List Nat).length = 2 ∧
    (by_lines_index_chunks "p" [97, 98] 1).length = 1 ∧
    (by_lines_index_chunks "p" [97, 98] 1).all
      (fun c => !(decide (c.start_byte ≤ 1 ∧ 1 < c.end_byte))) = true := by decide

/-- Walking the zipped boundary pairs: any `x` between the head boundary and
the final boundary `f` lies in one of the adjacent windows. -/
theorem zip_chain_covers (t : List (Nat × Nat)) :
    ∀ (h f : Nat × Nat) (x : Nat), h.2 ≤ x → x < f.2 →
      ∃ pr ∈ (h :: t).zip ((h :: t).drop 1 ++ [f]), pr.1.2 ≤ x ∧ x < pr.2.2 := by
  induction t with
  | nil =>
    intro h f x hx hxf
    exact ⟨(h, f), by simp, hx, hxf⟩
  | cons b t ih =>
    intro h f x hx hxf
    by_cases hb : x < b.2
    · exact ⟨(h, b), by simp, hx, hb⟩
    · obtain ⟨pr, hmem, hpr⟩ := ih b f x (by omega) hxf
      refine ⟨pr, ?_, hpr⟩
      simp only [List.drop_one, List.tail_cons] at hmem ⊢
      simpa using List.mem_cons_of_mem (h, b) (by simpa using hmem)

/-- Unfolding one step of `stride` on a non-empty list. -/
theorem stride_cons (size : Nat) (x : Nat × Nat) (xs : List (Nat × Nat)) :
    stride size (x :: xs) = x :: strideAux size xs.length (xs.drop (size - 1)) := by
  simp [stride, strideAux]

/-- C3 (amended): for a non-empty source and `size > 0` the chunks of
`by_lines_index_chunks` cover every byte of `[0, len(src) - 1)` — i.e. all of
the file except its final byte, which is never covered (see the
counterexample). -/
theorem c3_by_lines_covers_all_but_last (path : String) (src : List Nat)
    (size b : Nat) (hsz : 0 < size) (hb : b + 1 < src.length) :
    ∃ c ∈ by_lines_index_chunks path src size,
      c.start_byte ≤ b ∧ b < c.end_byte := by
  unfold by_lines_index_chunks
  rw [if_neg (by omega : ¬ size = 0)]
  have hends : (0 :: newlinePositions src).enum
      = (0, 0) :: (newlinePositions src).enumFrom 1 := rfl
  rw [hends]
  rw [if_neg (List.cons_ne_nil _ _)]
  rw [stride_cons]
  obtain ⟨pr, hmem, h1, h2⟩ :=
    zip_chain_covers
      (strideAux size ((newlinePositions src).enumFrom 1).length
        (((newlinePositions src).enumFrom 1).drop (size - 1)))
      (0, 0)
      ((((0, 0) :: (newlinePositions src).enumFrom 1).getLastD (0, 0)).1,
        src.length - 1)
      b (Nat.zero_le b) (by omega)
  refine ⟨_, List.mem_map_of_mem _ (List.mem_filter.mpr ⟨hmem, by
    simp only [decide_eq_true_eq]; omega⟩), ?_, ?_⟩
  · exact h1
  · exact h2

/-- Witness for the amended C3 theorem: on `"a\nb\nc\n"` with `size = 2`,
byte 3 is covered. -/
theorem c3_witness :
    0 < 2 ∧ 3 + 1 < ([97, 10, 98, 10, 99, 10] : List Nat).length ∧
    ∃ c ∈ by_lines_index_chunks "p" [97, 10, 98, 10, 99, 10] 2,
      c.start_byte ≤ 3 ∧ 3 < c.end_byte :=
  ⟨by decide, by decide,
    c3_by_lines_covers_all_but_last "p" [97, 10, 98, 10, 99, 10] 2 3
      (by decide) (by decide)⟩

/-! ## C7: failure handling of the scope loop -/

/-- C7 counterexample: when the budgeted splitter reports an error for every
scope (`max_tokens = 0`, the only error source), the scope loop of
`index_chunks` appends the full-file line-based chunks once **per failing
scope** and keeps going — the result is twice the line-based chunking, not
the whole-call line-based fallback the claim describes. -/
theorem c7_counterexample :
    by_tokens_in_token_range 1 "p" [97, 10, 98] hangTok [1, 2] [(0, 1), (2, 3)]
        0 0 (.ByLines 0) (0, 2) = some (.error .InvalidInput) ∧
    processScopes 1 "p" [97, 10, 98] hangTok [1, 2] [(0, 1), (2, 3)] 0 0
        (.ByLines 0) 1 [⟨⟨0, 0, 0⟩, ⟨3, 0, 1⟩⟩, ⟨⟨0, 0, 0⟩, ⟨3, 0, 1⟩⟩] ≠
      some (by_lines_index_chunks "p" [97, 10, 98] 1) := by decide

/-- C7 (amended): (i) `by_tokens_in_token_range` only returns an error when
`max_tokens = 0`, which `index_chunks` never passes (its computed budget is
positive), so the failure is unreachable there; (ii) were the splitter to
fail on an oversized scope, the scope loop would append the full-file
line-based chunking for that scope and continue with the remaining scopes —
a per-scope patch, not a whole-call fallback. -/
theorem c7_split_error_behaviour :
    (∀ (fuel : Nat) (path : String) (src : List Nat) (tok : Tok) (ids : List Nat)
        (offsets : List (Nat × Nat)) (mi ma : Nat) (strat : OverlapStrategy)
        (tr : Nat × Nat) (e : IndexChunkBuildError), ma ≠ 0 →
        by_tokens_in_token_range fuel path src tok ids offsets mi ma strat tr ≠
          some (.error e)) ∧
    (∀ (fuel : Nat) (path : String) (src : List Nat) (tok : Tok) (ids : List Nat)
        (offsets : List (Nat × Nat)) (mi ma fb : Nat) (strat : OverlapStrategy)
        (r : TextRange) (rest : List TextRange) (tr : Nat × Nat)
        (e : IndexChunkBuildError),
        ¬ r.«end».byte ≤ r.start.byte →
        token_range_for_byte_range offsets r.start.byte r.«end».byte = some tr →
        ¬ tr.2 - tr.1 ≤ ma →
        by_tokens_in_token_range fuel path src tok ids offsets mi ma strat tr =
          some (.error e) →
        processScopes fuel path src tok ids offsets mi ma strat fb (r :: rest) =
          (processScopes fuel path src tok ids offsets mi ma strat fb rest).map
            (fun rest_out => by_lines_index_chunks path src fb ++ rest_out)) := by
  constructor
  · intro fuel path src tok ids offsets mi ma strat tr e hma
    unfold by_tokens_in_token_range
    by_cases h1 : offsets = []
    · simp [if_pos h1]
    · rw [if_neg h1]
      by_cases h2 : tr.2 ≤ tr.1 ∨ offsets.length < tr.2
      · simp [if_pos h2]
      · rw [if_neg h2, if_neg hma]
        cases h3 : byTokensLoop path src tok ids offsets mi ma strat tr.1 (tr.2 - 1)
            fuel (tr.1, 0, 0, []) with
        | none => simp
        | some cs => simp
  · intro fuel path src tok ids offsets mi ma fb strat r rest tr e h1 htr h3 hbt
    simp only [processScopes, if_neg h1, htr, if_neg h3, hbt]

/-- Witness for the amended C7 theorem: with a positive budget the splitter
returns no error on a concrete input, and with `max_tokens = 0` the scope
loop patches the failing scope with line-based chunks and continues. -/
theorem c7_witness :
    (by_tokens_in_token_range 1 "p" [97, 10, 98] hangTok [1, 2] [(0, 1), (2, 3)]
        0 5 (.ByLines 0) (0, 2) ≠ some (.error .InvalidInput)) ∧
    processScopes 1 "p" [97, 10, 98] hangTok [1, 2] [(0, 1), (2, 3)] 0 0
        (.ByLines 0) 1 [⟨⟨0, 0, 0⟩, ⟨3, 0, 1⟩⟩] =
      (processScopes 1 "p" [97, 10, 98] hangTok [1, 2] [(0, 1), (2, 3)] 0 0
          (.ByLines 0) 1 []).map
        (fun rest_out => by_lines_index_chunks "p" [97, 10, 98] 1 ++ rest_out) :=
  ⟨c7_split_error_behaviour.1 1 "p" [97, 10, 98] hangTok [1, 2] [(0, 1), (2, 3)]
      0 5 (.ByLines 0) (0, 2) .InvalidInput (by decide),
   c7_split_error_behaviour.2 1 "p" [97, 10, 98] hangTok [1, 2] [(0, 1), (2, 3)]
      0 0 1 (.ByLines 0) ⟨⟨0, 0, 0⟩, ⟨3, 0, 1⟩⟩ [] (0, 2) .InvalidInput
      (by decide) (by decide) (by decide) (by decide)⟩

/-! ## C2: small scopes are emitted whole -/

/-- The scope loop distributes over list append. -/
theorem processScopes_append (fuel : Nat) (path : String) (src : List Nat)
    (tok : Tok) (ids : List Nat) (offsets : List (Nat × Nat)) (mi ma : Nat)
    (strat : OverlapStrategy) (fb : Nat) (l1 l2 : List TextRange) :
    processScopes fuel path src tok ids offsets mi ma strat fb (l1 ++ l2) =
      (processScopes fuel path src tok ids offsets mi ma strat fb l1).bind
        (fun a => (processScopes fuel path src tok ids offsets mi ma strat fb l2).map
          (fun b => a ++ b)) := by
  induction l1 with
  | nil =>
    cases h2 : processScopes fuel path src tok ids offsets mi ma strat fb l2 with
    | none => simp [processScopes, h2]
    | some b => simp [processScopes, h2]
  | cons r rest ih =>
    by_cases h1 : r.«end».byte ≤ r.start.byte
    · simpa only [List.cons_append, processScopes, if_pos h1] using ih
    · cases htr : token_range_for_byte_range offsets r.start.byte r.«end».byte with
      | none => simpa only [List.cons_append, processScopes, if_neg h1, htr] using ih
      | some tr =>
        by_cases h3 : tr.2 - tr.1 ≤ ma
        · by_cases h4 : r.start.byte < r.«end».byte
          · simp only [List.cons_append, processScopes, if_neg h1, htr, if_pos h3,
              if_pos h4, ih]
            cases hr : processScopes fuel path src tok ids offsets mi ma strat fb
                rest <;>
              cases hl : processScopes fuel path src tok ids offsets mi ma strat fb
                l2 <;> simp [ih, hr, hl]
          · simpa only [List.cons_append, processScopes, if_neg h1, htr, if_pos h3,
              if_neg h4] using ih
        · cases hbt : by_tokens_in_token_range fuel path src tok ids offsets mi ma
              strat tr with
          | none => simp only [List.cons_append, processScopes, if_neg h1, htr,
              if_neg h3, hbt, Option.none_bind]
          | some res =>
            cases res with
            | ok chunks =>
              simp only [List.cons_append, processScopes, if_neg h1, htr, if_neg h3,
                hbt, ih]
              cases hr : processScopes fuel path src tok ids offsets mi ma strat fb
                  rest <;>
                cases hl : processScopes fuel path src tok ids offsets mi ma strat fb
                  l2 <;> simp [ih, hr, hl, List.append_assoc]
            | error e =>
              simp only [List.cons_append, processScopes, if_neg h1, htr, if_neg h3,
                hbt, ih]
              cases hr : processScopes fuel path src tok ids offsets mi ma strat fb
                  rest <;>
                cases hl : processScopes fuel path src tok ids offsets mi ma strat fb
                  l2 <;> simp [ih, hr, hl, List.append_assoc]

/-- C2: a top-level scope with a non-empty byte range whose mapped token range
is non-empty and no longer than the effective budget contributes exactly one
`IndexChunk`, spanning its full byte range, to the output of `index_chunks` —
with no condition on `min_chunk_tokens`. -/
theorem c2_small_scope_single_chunk (fuel : Nat) (repo path : String)
    (src : List Nat) (pre post : List TextRange) (r : TextRange) (tok : Tok)
    (opt : IndexChunkOptions) (enc p : Encoding) (a b : List IndexChunk)
    (tr : Nat × Nat)
    (hsrc : tok.encode src = some enc)
    (hpre : tok.encode (utf8Bytes (repo ++ "\t" ++ path ++ "\n")) = some p)
    (hbudget : DEDUCT_SPECIAL_TOKENS + p.ids.length < opt.max_chunk_tokens)
    (hne : r.start.byte < r.«end».byte)
    (htr : token_range_for_byte_range (trimOffsets enc.offsets) r.start.byte
      r.«end».byte = some tr)
    (hlen : tr.2 - tr.1 ≤ opt.max_chunk_tokens - DEDUCT_SPECIAL_TOKENS - p.ids.length)
    (ha : processScopes fuel path src tok (idsTrim enc) (trimOffsets enc.offsets)
      opt.min_chunk_tokens
      (opt.max_chunk_tokens - DEDUCT_SPECIAL_TOKENS - p.ids.length)
      opt.overlap opt.fallback_lines pre = some a)
    (hb : processScopes fuel path src tok (idsTrim enc) (trimOffsets enc.offsets)
      opt.min_chunk_tokens
      (opt.max_chunk_tokens - DEDUCT_SPECIAL_TOKENS - p.ids.length)
      opt.overlap opt.fallback_lines post = some b) :
    index_chunks fuel repo path src (pre ++ r :: post) tok opt =
      some (a ++ make_index_chunk_by_bytes path src r.start.byte r.«end».byte :: b) := by
  have hmid : processScopes fuel path src tok (idsTrim enc) (trimOffsets enc.offsets)
      opt.min_chunk_tokens
      (opt.max_chunk_tokens - DEDUCT_SPECIAL_TOKENS - p.ids.length)
      opt.overlap opt.fallback_lines (r :: post) =
      some (make_index_chunk_by_bytes path src r.start.byte r.«end».byte :: b) := by
    simp only [processScopes, if_neg (by omega : ¬ r.«end».byte ≤ r.start.byte), htr,
      if_pos hlen, if_pos hne, hb]
    rfl
  have hscope : processScopes fuel path src tok (idsTrim enc) (trimOffsets enc.offsets)
      opt.min_chunk_tokens
      (opt.max_chunk_tokens - DEDUCT_SPECIAL_TOKENS - p.ids.length)
      opt.overlap opt.fallback_lines (pre ++ r :: post) =
      some (a ++ make_index_chunk_by_bytes path src r.start.byte r.«end».byte :: b) := by
    rw [processScopes_append, ha, hmid]
    rfl
  unfold index_chunks
  simp only [hsrc, hpre]
  rw [if_neg (by omega : ¬ opt.max_chunk_tokens ≤ DEDUCT_SPECIAL_TOKENS + p.ids.length)]
  rw [if_neg (by simp : ¬ (pre ++ r :: post).isEmpty = true)]
  simp only [hscope]
  rw [if_neg (by simp : ¬ (a ++ make_index_chunk_by_bytes path src r.start.byte
    r.«end».byte :: b).isEmpty = true)]

/-- C2 witness: a one-scope file whose scope fits the budget yields exactly
the single whole-scope chunk, although its token length 2 is far below
`min_chunk_tokens = 50`. -/
theorem c2_witness :
    index_chunks 5 "r" "p" [97, 10, 98] [⟨⟨0, 0, 0⟩, ⟨3, 0, 1⟩⟩]
        ⟨fun bs => if bs = [97, 10, 98] then some ⟨[1, 2], [(0, 1), (2, 3)]⟩
                   else some ⟨[], []⟩,
         fun _ => none⟩
        ⟨50, 10, .ByLines 0, 7⟩ =
      some ([] ++ make_index_chunk_by_bytes "p" [97, 10, 98] 0 3 :: []) :=
  c2_small_scope_single_chunk 5 "r" "p" [97, 10, 98] [] [] ⟨⟨0, 0, 0⟩, ⟨3, 0, 1⟩⟩
    ⟨fun bs => if bs = [97, 10, 98] then some ⟨[1, 2], [(0, 1), (2, 3)]⟩
               else some ⟨[], []⟩,
     fun _ => none⟩
    ⟨50, 10, .ByLines 0, 7⟩ ⟨[1, 2], [(0, 1), (2, 3)]⟩ ⟨[], []⟩ [] [] (0, 2)
    (by decide) (by decide) (by decide) (by decide) (by decide) (by decide)
    (by decide) (by decide)

/-! ## C10: refill produces one chunk per hit -/

theorem renumberFrom_length (j : Nat) (l : List ContextChunk) :
    (renumberFrom j l).length = l.length := by
  induction l generalizing j with
  | nil => rfl
  | cons c rest ih => simp [renumberFrom, ih]

theorem renumberFrom_get (l : List ContextChunk) (j i : Nat)
    (h : i < (renumberFrom j l).length) (h' : i < l.length) :
    (renumberFrom j l).get ⟨i, h⟩ = { l.get ⟨i, h'⟩ with «alias» := j + i } := by
  induction l generalizing j i with
  | nil => simp at h'
  | cons c rest ih =>
    cases i with
    | zero => rfl
    | succ n =>
      have hn : n < rest.length := by simpa using h'
      have hr : n < (renumberFrom (j + 1) rest).length := by
        simpa [renumberFrom_length] using hn
      have step : (renumberFrom j (c :: rest)).get ⟨n + 1, h⟩ =
          (renumberFrom (j + 1) rest).get ⟨n, hr⟩ := rfl
      rw [step, ih (j + 1) n hr hn]
      have : j + 1 + n = j + (n + 1) := by omega
      rw [this]
      rfl

/-- Every `refillOne` result carries one of the two provenance reasons. -/
theorem refillOne_reason (path : String) (src : List Nat)
    (top_scopes : List TextRange) (line_starts : List Nat) (total_lines : Nat)
    (opt : RefillOptions) (hit : IndexChunk) :
    (refillOne path src top_scopes line_starts total_lines opt hit).reason =
      "refill from enclosing top-level scope" ∨
    (refillOne path src top_scopes line_starts total_lines opt hit).reason =
      "refill fallback window" := by
  unfold refillOne
  cases hfold : top_scopes.foldl
      (fun best r =>
        if r.start.byte ≤ hit.start_byte ∧ hit.end_byte ≤ r.«end».byte then
          match best with
          | none => some r
          | some cur => if r.size < cur.size then some r else some cur
        else best)
      none with
  | none => right; simp [hfold]
  | some r => left; simp [hfold]

/-- C10: `refill_chunks` yields exactly one `ContextChunk` per hit, in hit
order: the `i`-th output chunk is the refill of the `i`-th hit with its alias
renumbered to `i`, and its reason is one of the two provenance strings. -/
theorem c10_refill_one_chunk_per_hit (path : String) (src : List Nat)
    (top_scopes : List TextRange) (hits : List IndexChunk) (opt : RefillOptions) :
    (refill_chunks path src top_scopes hits opt).length = hits.length ∧
    ∀ i (h : i < (refill_chunks path src top_scopes hits opt).length),
      (refill_chunks path src top_scopes hits opt).get ⟨i, h⟩ =
        { refillOne path src top_scopes (compute_line_starts src)
            ((compute_line_starts src).length - 1) opt
            (hits.getD i ⟨"", 0, 0, 0, 0, []⟩) with «alias» := i } ∧
      (((refill_chunks path src top_scopes hits opt).get ⟨i, h⟩).«alias» = i ∧
       (((refill_chunks path src top_scopes hits opt).get ⟨i, h⟩).reason =
          "refill from enclosing top-level scope" ∨
        ((refill_chunks path src top_scopes hits opt).get ⟨i, h⟩).reason =
          "refill fallback window")) := by
  have hlen : (refill_chunks path src top_scopes hits opt).length = hits.length := by
    simp [refill_chunks, renumberFrom_length]
  refine ⟨hlen, ?_⟩
  intro i h
  have h' : i < hits.length := hlen ▸ h
  have hm : i < (hits.map (refillOne path src top_scopes (compute_line_starts src)
      ((compute_line_starts src).length - 1) opt)).length := by simpa using h'
  have hget : (refill_chunks path src top_scopes hits opt).get ⟨i, h⟩ =
      { (hits.map (refillOne path src top_scopes (compute_line_starts src)
          ((compute_line_starts src).length - 1) opt)).get ⟨i, hm⟩ with
        «alias» := 0 + i } :=
    renumberFrom_get _ 0 i h hm
  rw [List.get_map] at hget
  rw [List.getD_eq_get hits _ h']
  have hz : (0 : Nat) + i = i := by omega
  rw [hz] at hget
  refine ⟨hget, ?_, ?_⟩
  · rw [hget]
  · rw [hget]
    simpa using refillOne_reason path src top_scopes (compute_line_starts src)
      ((compute_line_starts src).length - 1) opt (hits.get ⟨i, h'⟩)

/-- C10 witness: two identical hits against a one-scope file produce two
chunks with aliases 0 and 1 and the scope-refill reason. -/
theorem c10_witness :
    (refill_chunks "p" [97, 10, 98] [⟨⟨0, 0, 0⟩, ⟨3, 0, 1⟩⟩]
        [⟨"p", 0, 1, 0, 0, [97]⟩, ⟨"p", 2, 3, 1, 1, [98]⟩] ⟨4⟩).length =
      ([⟨"p", 0, 1, 0, 0, [97]⟩, ⟨"p", 2, 3, 1, 1, [98]⟩] :
        List IndexChunk).length ∧
    ((refill_chunks "p" [97, 10, 98] [⟨⟨0, 0, 0⟩, ⟨3, 0, 1⟩⟩]
        [⟨"p", 0, 1, 0, 0, [97]⟩, ⟨"p", 2, 3, 1, 1, [98]⟩] ⟨4⟩).get
      ⟨1, by decide⟩).«alias» = 1 :=
  ⟨(c10_refill_one_chunk_per_hit "p" [97, 10, 98] [⟨⟨0, 0, 0⟩, ⟨3, 0, 1⟩⟩]
      [⟨"p", 0, 1, 0, 0, [97]⟩, ⟨"p", 2, 3, 1, 1, [98]⟩] ⟨4⟩).1,
   ((c10_refill_one_chunk_per_hit "p" [97, 10, 98] [⟨⟨0, 0, 0⟩, ⟨3, 0, 1⟩⟩]
      [⟨"p", 0, 1, 0, 0, [97]⟩, ⟨"p", 2, 3, 1, 1, [98]⟩] ⟨4⟩).2 1
      (by decide)).2.1⟩

/-! ## C8: the byte-range/text invariant of every produced chunk -/

/-- The `IndexChunk` invariant of the spec: ordered byte range, and `text`
equal to the source restricted to `[start_byte, end_byte)`. -/
def chunkInv (src : List Nat) (c : IndexChunk) : Prop :=
  c.start_byte ≤ c.end_byte ∧ c.text = sliceBytes src c.start_byte c.end_byte

theorem by_lines_chunkInv (path : String) (src : List Nat) (size : Nat) :
    ∀ c ∈ by_lines_index_chunks path src size, chunkInv src c := by
  intro c hc
  simp only [by_lines_index_chunks] at hc
  split at hc
  · simp at hc
  · split at hc
    · simp at hc
    · rw [List.mem_map] at hc
      obtain ⟨pr, hpr, rfl⟩ := hc
      rw [List.mem_filter] at hpr
      have h2 := hpr.2
      simp only [decide_eq_true_eq] at h2
      exact ⟨Nat.le_of_lt h2, rfl⟩

theorem make_index_chunk_by_bytes_chunkInv (path : String) (src : List Nat)
    (s e : Nat) (h : s < e) :
    chunkInv src (make_index_chunk_by_bytes path src s e) := by
  unfold make_index_chunk_by_bytes
  rw [if_neg (by omega : ¬ e ≤ s)]
  exact ⟨Nat.le_of_lt h, rfl⟩

theorem add_token_range_chunkInv (chunks : List IndexChunk) (path : String)
    (src : List Nat) (offsets : List (Nat × Nat)) (o : Nat × Nat)
    (ll lb : Nat) :
    ∀ c ∈ (add_token_range chunks path src offsets o ll lb).1,
      c ∈ chunks ∨ chunkInv src c := by
  intro c hc
  simp only [add_token_range] at hc
  split at hc
  · exact Or.inl hc
  · rw [List.mem_append] at hc
    rcases hc with hc | hc
    · exact Or.inl hc
    · rw [List.mem_singleton] at hc
      subst hc
      next hlt => exact Or.inr ⟨by dsimp only; omega, rfl⟩

theorem byTokensStep_chunkInv (path : String) (src : List Nat) (tok : Tok)
    (ids : List Nat) (offsets : List (Nat × Nat)) (mi ma : Nat)
    (strat : OverlapStrategy) (lo ol : Nat) (s ll lb : Nat)
    (chunks : List IndexChunk) :
    ∀ c ∈ (match byTokensStep path src tok ids offsets mi ma strat lo ol
        (s, ll, lb, chunks) with
      | .inl out => out
      | .inr st' => st'.2.2.2), c ∈ chunks ∨ chunkInv src c := by
  simp only [byTokensStep]
  set E := chooseEndLimit src tok ids offsets (ma * 3 / 4) (ma * 7 / 8) s
    (Nat.min (s + ma) ol) ol with hE
  have hst2 : ∀ x ∈ (if mi ≤ E - s ∨ E = ol then
      add_token_range chunks path src offsets (s, E + 1) ll lb
    else (chunks, ll, lb)).1, x ∈ chunks ∨ chunkInv src x := by
    by_cases hemit : mi ≤ E - s ∨ E = ol
    · rw [if_pos hemit]
      exact add_token_range_chunkInv chunks path src offsets _ ll lb
    · rw [if_neg hemit]
      intro x hx
      exact Or.inl hx
  by_cases h1 : ol ≤ s
  · rw [if_pos h1]
    intro c hc
    exact Or.inl hc
  · rw [if_neg h1]
    by_cases h2 : E = ol
    · rw [if_pos h2]
      intro c hc
      exact hst2 c hc
    · rw [if_neg h2]
      by_cases h4 : ol ≤ Nat.max (chooseNextStart src tok ids offsets s
          (strat.next_subdivision (E - s))
          (if E ≤ s + strat.next_subdivision (E - s) then E - 1
           else s + strat.next_subdivision (E - s)) E) lo
      · rw [if_pos h4]
        intro c hc
        exact hst2 c hc
      · rw [if_neg h4]
        intro c hc
        exact hst2 c hc

theorem byTokensLoop_chunkInv (path : String) (src : List Nat) (tok : Tok)
    (ids : List Nat) (offsets : List (Nat × Nat)) (mi ma : Nat)
    (strat : OverlapStrategy) (lo ol : Nat) :
    ∀ (fuel s ll lb : Nat) (chunks out : List IndexChunk),
      byTokensLoop path src tok ids offsets mi ma strat lo ol fuel
        (s, ll, lb, chunks) = some out →
      ∀ c ∈ out, c ∈ chunks ∨ chunkInv src c := by
  intro fuel
  induction fuel with
  | zero => intro s ll lb chunks out h; simp [byTokensLoop] at h
  | succ n ih =>
    intro s ll lb chunks out h c hc
    rw [byTokensLoop] at h
    cases hstep : byTokensStep path src tok ids offsets mi ma strat lo ol
        (s, ll, lb, chunks) with
    | inl cs =>
      rw [hstep] at h
      cases h
      have hs := byTokensStep_chunkInv path src tok ids offsets mi ma strat lo ol
        s ll lb chunks
      rw [hstep] at hs
      exact hs c hc
    | inr st' =>
      rw [hstep] at h
      have hs := byTokensStep_chunkInv path src tok ids offsets mi ma strat lo ol
        s ll lb chunks
      rw [hstep] at hs
      obtain ⟨s', ll', lb', cs'⟩ := st'
      rcases ih s' ll' lb' cs' out h c hc with h2 | h2
      · exact hs c h2
      · exact Or.inr h2

theorem by_tokens_chunkInv (fuel : Nat) (path : String) (src : List Nat)
    (tok : Tok) (ids : List Nat) (offsets : List (Nat × Nat)) (mi ma : Nat)
    (strat : OverlapStrategy) (tr : Nat × Nat) (out : List IndexChunk)
    (h : by_tokens_in_token_range fuel path src tok ids offsets mi ma strat tr =
      some (.ok out)) :
    ∀ c ∈ out, chunkInv src c := by
  intro c hc
  unfold by_tokens_in_token_range at h
  split at h
  · cases h; simp at hc
  · split at h
    · cases h; simp at hc
    · split at h
      · cases h
      · cases hloop : byTokensLoop path src tok ids offsets mi ma strat tr.1
            (tr.2 - 1) fuel (tr.1, 0, 0, []) with
        | none => rw [hloop] at h; cases h
        | some cs =>
          rw [hloop] at h
          have hco : cs = out := by
            have h2 := Option.some.inj h
            exact Except.ok.inj h2
          subst hco
          rcases byTokensLoop_chunkInv path src tok ids offsets mi ma strat tr.1
            (tr.2 - 1) fuel tr.1 0 0 [] cs hloop c hc with h2 | h2
          · simp at h2
          · exact h2

theorem processScopes_chunkInv (fuel : Nat) (path : String) (src : List Nat)
    (tok : Tok) (ids : List Nat) (offsets : List (Nat × Nat)) (mi ma : Nat)
    (strat : OverlapStrategy) (fb : Nat) :
    ∀ (scopes : List TextRange) (out : List IndexChunk),
      processScopes fuel path src tok ids offsets mi ma strat fb scopes =
        some out →
      ∀ c ∈ out, chunkInv src c := by
  intro scopes
  induction scopes with
  | nil => intro out h c hc; cases h; simp at hc
  | cons r rest ih =>
    intro out h c hc
    by_cases h1 : r.«end».byte ≤ r.start.byte
    · rw [processScopes, if_pos h1] at h
      exact ih out h c hc
    · rw [processScopes, if_neg h1] at h
      cases htr : token_range_for_byte_range offsets r.start.byte r.«end».byte with
      | none => rw [htr] at h; exact ih out h c hc
      | some tr =>
        rw [htr] at h
        simp only at h
        by_cases h3 : tr.2 - tr.1 ≤ ma
        · rw [if_pos h3] at h
          by_cases h4 : r.start.byte < r.«end».byte
          · rw [if_pos h4] at h
            cases hps : processScopes fuel path src tok ids offsets mi ma strat fb
                rest with
            | none => rw [hps] at h; cases h
            | some b =>
              rw [hps] at h
              cases h
              rcases List.mem_cons.mp hc with hc | hc
              · subst hc
                exact make_index_chunk_by_bytes_chunkInv path src _ _ h4
              · exact ih b hps c hc
          · rw [if_neg h4] at h
            exact ih out h c hc
        · rw [if_neg h3] at h
          cases hbt : by_tokens_in_token_range fuel path src tok ids offsets mi ma
              strat tr with
          | none => rw [hbt] at h; cases h
          | some res =>
            rw [hbt] at h
            cases res with
            | ok cs =>
              cases hps : processScopes fuel path src tok ids offsets mi ma strat fb
                  rest with
              | none => rw [hps] at h; cases h
              | some b =>
                rw [hps] at h
                cases h
                rcases List.mem_append.mp hc with hc | hc
                · exact by_tokens_chunkInv fuel path src tok ids offsets mi ma strat
                    tr cs hbt c hc
                · exact ih b hps c hc
            | error e =>
              cases hps : processScopes fuel path src tok ids offsets mi ma strat fb
                  rest with
              | none => rw [hps] at h; cases h
              | some b =>
                rw [hps] at h
                cases h
                rcases List.mem_append.mp hc with hc | hc
                · exact by_lines_chunkInv path src fb c hc
                · exact ih b hps c hc

/-- C8: every `IndexChunk` produced by `index_chunks` — through whole-scope
emission, budgeted token splitting, or the line-based fallback — satisfies
`start_byte ≤ end_byte` and has `text` equal to the source bytes restricted to
`[start_byte, end_byte)`. -/
theorem c8_index_chunks_invariant (fuel : Nat) (repo path : String)
    (src : List Nat) (top_scopes : List TextRange) (tok : Tok)
    (opt : IndexChunkOptions) (out : List IndexChunk)
    (h : index_chunks fuel repo path src top_scopes tok opt = some out) :
    ∀ c ∈ out, chunkInv src c := by
  intro c hc
  unfold index_chunks at h
  cases henc : tok.encode src with
  | none =>
    rw [henc] at h
    cases h
    exact by_lines_chunkInv path src opt.fallback_lines c hc
  | some enc =>
    rw [henc] at h
    simp only at h
    cases hpre : tok.encode (utf8Bytes (repo ++ "\t" ++ path ++ "\n")) with
    | none =>
      rw [hpre] at h
      cases h
      exact by_lines_chunkInv path src opt.fallback_lines c hc
    | some p =>
      rw [hpre] at h
      simp only at h
      by_cases hbud : opt.max_chunk_tokens ≤ DEDUCT_SPECIAL_TOKENS + p.ids.length
      · rw [if_pos hbud] at h
        cases h
        exact by_lines_chunkInv path src opt.fallback_lines c hc
      · rw [if_neg hbud] at h
        by_cases hts : top_scopes.isEmpty
        · rw [if_pos hts] at h
          simp only at h
          cases hbt : by_tokens_in_token_range fuel path src tok (idsTrim enc)
              (trimOffsets enc.offsets) opt.min_chunk_tokens
              (opt.max_chunk_tokens - DEDUCT_SPECIAL_TOKENS - p.ids.length)
              opt.overlap (0, (trimOffsets enc.offsets).length) with
          | none => rw [hbt] at h; cases h
          | some res =>
            rw [hbt] at h
            cases res with
            | ok cs =>
              have hco : cs = out := Option.some.inj h
              subst hco
              exact by_tokens_chunkInv fuel path src tok (idsTrim enc)
                (trimOffsets enc.offsets) opt.min_chunk_tokens
                (opt.max_chunk_tokens - DEDUCT_SPECIAL_TOKENS - p.ids.length)
                opt.overlap (0, (trimOffsets enc.offsets).length) cs hbt c hc
            | error e =>
              have hco := Option.some.inj h
              rw [← hco] at hc
              exact by_lines_chunkInv path src opt.fallback_lines c hc
        · rw [if_neg hts] at h
          cases hps : processScopes fuel path src tok (idsTrim enc)
              (trimOffsets enc.offsets) opt.min_chunk_tokens
              (opt.max_chunk_tokens - DEDUCT_SPECIAL_TOKENS - p.ids.length)
              opt.overlap opt.fallback_lines top_scopes with
          | none => rw [hps] at h; cases h
          | some sc =>
            rw [hps] at h
            simp only at h
            by_cases hsc : sc.isEmpty
            · rw [if_pos hsc] at h
              cases hbt : by_tokens_in_token_range fuel path src tok (idsTrim enc)
                  (trimOffsets enc.offsets) opt.min_chunk_tokens
                  (opt.max_chunk_tokens - DEDUCT_SPECIAL_TOKENS - p.ids.length)
                  opt.overlap (0, (trimOffsets enc.offsets).length) with
              | none => rw [hbt] at h; cases h
              | some res =>
                rw [hbt] at h
                cases res with
                | ok cs =>
                  have hco : cs = out := Option.some.inj h
                  subst hco
                  exact by_tokens_chunkInv fuel path src tok (idsTrim enc)
                    (trimOffsets enc.offsets) opt.min_chunk_tokens
                    (opt.max_chunk_tokens - DEDUCT_SPECIAL_TOKENS - p.ids.length)
                    opt.overlap (0, (trimOffsets enc.offsets).length) cs hbt c hc
                | error e =>
                  have hco := Option.some.inj h
                  rw [← hco] at hc
                  exact by_lines_chunkInv path src opt.fallback_lines c hc
            · rw [if_neg hsc] at h
              have hco : sc = out := Option.some.inj h
              subst hco
              exact processScopes_chunkInv fuel path src tok (idsTrim enc)
                (trimOffsets enc.offsets) opt.min_chunk_tokens
                (opt.max_chunk_tokens - DEDUCT_SPECIAL_TOKENS - p.ids.length)
                opt.overlap opt.fallback_lines top_scopes sc hps c hc

/-- C8 witness: the invariant holds on the concrete output of a small run. -/
theorem c8_witness :
    index_chunks 5 "r" "q" [97, 10, 98] [⟨⟨0, 0, 0⟩, ⟨3, 0, 1⟩⟩]
        ⟨fun bs => if bs = [97, 10, 98] then some ⟨[1, 2], [(0, 1), (2, 3)]⟩
                   else some ⟨[], []⟩,
         fun _ => none⟩
        ⟨50, 10, .ByLines 0, 7⟩ =
      some [make_index_chunk_by_bytes "q" [97, 10, 98] 0 3] ∧
    ∀ c ∈ [make_index_chunk_by_bytes "q" [97, 10, 98] 0 3],
      chunkInv [97, 10, 98] c :=
  ⟨by decide,
   c8_index_chunks_invariant 5 "r" "q" [97, 10, 98] [⟨⟨0, 0, 0⟩, ⟨3, 0, 1⟩⟩]
     ⟨fun bs => if bs = [97, 10, 98] then some ⟨[1, 2], [(0, 1), (2, 3)]⟩
                else some ⟨[], []⟩,
      fun _ => none⟩
     ⟨50, 10, .ByLines 0, 7⟩ [make_index_chunk_by_bytes "q" [97, 10, 98] 0 3]
     (by decide)⟩

/-! ## C5: idempotence of dedup -/

theorem strDataInj {s t : String} (h : s.data = t.data) : s = t := by
  cases s
  cases t
  exact congrArg String.mk h

theorem keyLt_irrefl (a : String × Nat × Nat) : ¬ keyLt a a := by
  intro h
  rcases h with h | ⟨-, h | ⟨-, h⟩⟩ <;> exact absurd h (lt_irrefl _)

theorem keyLt_trans {a b c : String × Nat × Nat} (h1 : keyLt a b)
    (h2 : keyLt b c) : keyLt a c := by
  rcases h1 with h1 | ⟨e1, h1⟩ <;> rcases h2 with h2 | ⟨e2, h2⟩
  · exact Or.inl (lt_trans h1 h2)
  · exact Or.inl (e2 ▸ h1)
  · exact Or.inl (e1 ▸ h2)
  · refine Or.inr ⟨e1.trans e2, ?_⟩
    rcases h1 with h1 | ⟨f1, h1⟩ <;> rcases h2 with h2 | ⟨f2, h2⟩ <;> omega

theorem keyLt_asymm {a b : String × Nat × Nat} (h : keyLt a b) : ¬ keyLt b a :=
  fun h' => keyLt_irrefl a (keyLt_trans h h')

theorem keyLt_ne {a b : String × Nat × Nat} (h : keyLt a b) : a ≠ b :=
  fun he => keyLt_irrefl b (he ▸ h)

theorem keyLt_of_not_of_ne {a b : String × Nat × Nat} (h1 : ¬ keyLt a b)
    (h2 : a ≠ b) : keyLt b a := by
  rcases lt_trichotomy a.1.data b.1.data with h | h | h
  · exact absurd (Or.inl h) h1
  · have hs : a.1 = b.1 := strDataInj h
    have hnum : ¬ (a.2.1 < b.2.1 ∨ (a.2.1 = b.2.1 ∧ a.2.2 < b.2.2)) :=
      fun hl => h1 (Or.inr ⟨hs, hl⟩)
    have hne : a.2.1 ≠ b.2.1 ∨ a.2.2 ≠ b.2.2 := by
      by_cases e1 : a.2.1 = b.2.1
      · by_cases e2 : a.2.2 = b.2.2
        · exact absurd (Prod.ext hs (Prod.ext e1 e2)) h2
        · exact Or.inr e2
      · exact Or.inl e1
    refine Or.inr ⟨hs.symm, ?_⟩
    rcases hne with hne | hne <;> omega
  · exact Or.inl h

/-- `mergeReason` only rewrites `reason`; the dedup key is untouched. -/
theorem mergeReason_dedup_key (c' c : ContextChunk) :
    (mergeReason c' c).dedup_key = c'.dedup_key := by
  unfold mergeReason
  split <;> rfl

/-- Keys appearing after an insertion: the inserted key or an existing one. -/
theorem insertMerge_fst_sub (m : List ((String × Nat × Nat) × ContextChunk))
    (k : String × Nat × Nat) (c : ContextChunk) :
    ∀ x ∈ insertMerge m k c, x.1 = k ∨ ∃ y ∈ m, x.1 = y.1 := by
  induction m with
  | nil =>
    intro x hx
    rw [insertMerge, List.mem_singleton] at hx
    exact Or.inl (by rw [hx])
  | cons p rest ih =>
    obtain ⟨k', c'⟩ := p
    intro x hx
    rw [insertMerge] at hx
    by_cases h1 : keyLt k k'
    · rw [if_pos h1] at hx
      rcases List.mem_cons.mp hx with hx | hx
      · exact Or.inl (by rw [hx])
      · rcases List.mem_cons.mp hx with hx | hx
        · exact Or.inr ⟨(k', c'), by simp, by rw [hx]⟩
        · exact Or.inr ⟨x, by simp [hx], rfl⟩
    · rw [if_neg h1] at hx
      by_cases h2 : k = k'
      · rw [if_pos h2] at hx
        rcases List.mem_cons.mp hx with hx | hx
        · exact Or.inr ⟨(k', c'), by simp, by rw [hx]⟩
        · exact Or.inr ⟨x, by simp [hx], rfl⟩
      · rw [if_neg h2] at hx
        rcases List.mem_cons.mp hx with hx | hx
        · exact Or.inr ⟨(k', c'), by simp, by rw [hx]⟩
        · rcases ih x hx with h | ⟨y, hy, he⟩
          · exact Or.inl h
          · exact Or.inr ⟨y, by simp [hy], he⟩

/-- Insertion keeps the map strictly key-sorted. -/
theorem insertMerge_pairwise (m : List ((String × Nat × Nat) × ContextChunk))
    (k : String × Nat × Nat) (c : ContextChunk)
    (hm : m.Pairwise (fun x y => keyLt x.1 y.1)) :
    (insertMerge m k c).Pairwise (fun x y => keyLt x.1 y.1) := by
  induction m with
  | nil => simp [insertMerge]
  | cons p rest ih =>
    obtain ⟨k', c'⟩ := p
    obtain ⟨hp, hrest⟩ := List.pairwise_cons.mp hm
    rw [insertMerge]
    by_cases h1 : keyLt k k'
    · rw [if_pos h1]
      refine List.pairwise_cons.mpr ⟨?_, hm⟩
      intro y hy
      rcases List.mem_cons.mp hy with hy | hy
      · rw [hy]; exact h1
      · exact keyLt_trans h1 (hp y hy)
    · rw [if_neg h1]
      by_cases h2 : k = k'
      · rw [if_pos h2]
        exact List.pairwise_cons.mpr ⟨hp, hrest⟩
      · rw [if_neg h2]
        refine List.pairwise_cons.mpr ⟨?_, ih hrest⟩
        intro y hy
        rcases insertMerge_fst_sub rest k c y hy with h | ⟨z, hz, he⟩
        · rw [h]; exact keyLt_of_not_of_ne h1 h2
        · rw [he]; exact hp z hz

/-- Insertion keeps each stored key equal to its chunk's dedup key. -/
theorem insertMerge_keysMatch (m : List ((String × Nat × Nat) × ContextChunk))
    (k : String × Nat × Nat) (c : ContextChunk) (hc : k = c.dedup_key)
    (hm : ∀ x ∈ m, x.1 = x.2.dedup_key) :
    ∀ x ∈ insertMerge m k c, x.1 = x.2.dedup_key := by
  induction m with
  | nil =>
    intro x hx
    rw [insertMerge, List.mem_singleton] at hx
    rw [hx]
    exact hc
  | cons p rest ih =>
    obtain ⟨k', c'⟩ := p
    intro x hx
    rw [insertMerge] at hx
    by_cases h1 : keyLt k k'
    · rw [if_pos h1] at hx
      rcases List.mem_cons.mp hx with hx | hx
      · rw [hx]; exact hc
      · exact hm x (by simpa using hx)
    · rw [if_neg h1] at hx
      by_cases h2 : k = k'
      · rw [if_pos h2] at hx
        rcases List.mem_cons.mp hx with hx | hx
        · rw [hx]
          show k' = (mergeReason c' c).dedup_key
          rw [mergeReason_dedup_key]
          exact hm (k', c') (by simp)
        · exact hm x (by simp [hx])
      · rw [if_neg h2] at hx
        rcases List.mem_cons.mp hx with hx | hx
        · rw [hx]; exact hm (k', c') (by simp)
        · exact ih (fun y hy => hm y (by simp [hy])) x hx

/-- The whole fold is strictly key-sorted with matching keys. -/
theorem foldl_insertMerge_invariant (l : List ContextChunk) :
    ∀ m, m.Pairwise (fun x y => keyLt x.1 y.1) →
      (∀ x ∈ m, x.1 = x.2.dedup_key) →
      (l.foldl (fun m c => insertMerge m c.dedup_key c) m).Pairwise
          (fun x y => keyLt x.1 y.1) ∧
        ∀ x ∈ l.foldl (fun m c => insertMerge m c.dedup_key c) m,
          x.1 = x.2.dedup_key := by
  induction l with
  | nil => intro m h1 h2; exact ⟨h1, h2⟩
  | cons c rest ih =>
    intro m h1 h2
    rw [List.foldl_cons]
    exact ih (insertMerge m c.dedup_key c) (insertMerge_pairwise m _ c h1)
      (insertMerge_keysMatch m _ c rfl h2)

/-- The stable sort is the identity on a strictly key-sorted list. -/
theorem sortByKey_sorted_id (l : List ContextChunk)
    (h : l.Pairwise (fun x y => keyLt x.dedup_key y.dedup_key)) :
    sortByKey l = l := by
  induction l with
  | nil => rfl
  | cons c rest ih =>
    obtain ⟨hc, hrest⟩ := List.pairwise_cons.mp h
    rw [sortByKey, ih hrest]
    cases rest with
    | nil => rfl
    | cons d rest' => rw [insertByKey, if_pos (hc d (by simp))]

/-- Inserting a key above everything in the map appends at the end. -/
theorem insertMerge_append_of_lt (m : List ((String × Nat × Nat) × ContextChunk))
    (k : String × Nat × Nat) (c : ContextChunk)
    (h : ∀ x ∈ m, keyLt x.1 k) :
    insertMerge m k c = m ++ [(k, c)] := by
  induction m with
  | nil => rfl
  | cons p rest ih =>
    obtain ⟨k', c'⟩ := p
    have hk : keyLt k' k := h (k', c') (by simp)
    rw [insertMerge, if_neg (keyLt_asymm hk), if_neg (Ne.symm (keyLt_ne hk)),
      ih (fun x hx => h x (by simp [hx])), List.cons_append]

/-- Folding a strictly key-sorted chunk list into a map whose keys all lie
below it just appends the pairs in order: nothing merges. -/
theorem fold_of_pairwise (cs : List ContextChunk) :
    ∀ (m : List ((String × Nat × Nat) × ContextChunk)),
      cs.Pairwise (fun x y => keyLt x.dedup_key y.dedup_key) →
      (∀ x ∈ m, ∀ c ∈ cs, keyLt x.1 c.dedup_key) →
      cs.foldl (fun m c => insertMerge m c.dedup_key c) m =
        m ++ cs.map (fun c => (c.dedup_key, c)) := by
  induction cs with
  | nil => intro m _ _; simp
  | cons c rest ih =>
    intro m hp hm
    obtain ⟨hc, hrest⟩ := List.pairwise_cons.mp hp
    rw [List.foldl_cons,
      insertMerge_append_of_lt m c.dedup_key c (fun x hx => hm x hx c (by simp)),
      ih (m ++ [(c.dedup_key, c)]) hrest ?_]
    · simp
    · intro x hx d hd
      rcases List.mem_append.mp hx with hx | hx
      · exact hm x hx d (by simp [hd])
      · rw [List.mem_singleton] at hx
        rw [hx]
        exact hc d hd

theorem renumberFrom_map_key (i : Nat) (l : List ContextChunk) :
    (renumberFrom i l).map ContextChunk.dedup_key =
      l.map ContextChunk.dedup_key := by
  induction l generalizing i with
  | nil => rfl
  | cons c rest ih =>
    show ContextChunk.dedup_key { c with «alias» := i } ::
        (renumberFrom (i + 1) rest).map ContextChunk.dedup_key =
      c.dedup_key :: rest.map ContextChunk.dedup_key
    rw [ih]
    rfl

theorem renumberFrom_renumberFrom (l : List ContextChunk) :
    ∀ i, renumberFrom i (renumberFrom i l) = renumberFrom i l := by
  induction l with
  | nil => intro i; rfl
  | cons c rest ih =>
    intro i
    simp only [renumberFrom]
    rw [ih (i + 1)]

/-- C5: `dedup_context_chunks` is idempotent — running it on its own output
returns that output unchanged (aliases included, which is stronger than the
claimed "up to alias values"). -/
theorem c5_dedup_idempotent (x : List ContextChunk) :
    dedup_context_chunks (dedup_context_chunks x) = dedup_context_chunks x := by
  obtain ⟨hsorted, hkeys⟩ :=
    foldl_insertMerge_invariant x [] (by simp) (by simp)
  set vs := (x.foldl (fun m c => insertMerge m c.dedup_key c) []).map Prod.snd
    with hvsdef
  have hvs : vs.Pairwise (fun a b => keyLt a.dedup_key b.dedup_key) := by
    rw [hvsdef, List.pairwise_map]
    refine List.Pairwise.imp_of_mem ?_ hsorted
    intro a b ha hb hr
    rwa [hkeys a ha, hkeys b hb] at hr
  have hd1 : dedup_context_chunks x = renumberFrom 0 vs := by
    simp only [dedup_context_chunks]
    rw [sortByKey_sorted_id _ hvs]
  have hout : (renumberFrom 0 vs).Pairwise
      (fun a b => keyLt a.dedup_key b.dedup_key) := by
    have h2 : (vs.map ContextChunk.dedup_key).Pairwise keyLt :=
      List.pairwise_map.mpr hvs
    have h3 : ((renumberFrom 0 vs).map ContextChunk.dedup_key).Pairwise keyLt := by
      rw [renumberFrom_map_key]
      exact h2
    exact List.pairwise_map.mp h3
  have hfold2 : (renumberFrom 0 vs).foldl (fun m c => insertMerge m c.dedup_key c)
      [] = (renumberFrom 0 vs).map (fun c => (c.dedup_key, c)) := by
    have := fold_of_pairwise (renumberFrom 0 vs) [] hout (by simp)
    simpa using this
  rw [hd1]
  simp only [dedup_context_chunks]
  rw [hfold2, List.map_map]
  have hid : Prod.snd ∘ (fun c : ContextChunk => (c.dedup_key, c)) = id := rfl
  rw [hid, List.map_id, sortByKey_sorted_id _ hout, renumberFrom_renumberFrom]

/-- C6 (amended): when two chunks share the dedup key, the first is kept and
the second's reason is appended (preceded by `"; "` exactly when the kept
reason is non-empty) **iff** the second's reason is non-empty and differs, as
a whole string, from the kept reason. No substring containment is checked
(see the counterexample). -/
theorem c6_merge_iff_nonempty_and_ne (c1 c2 : ContextChunk)
    (hk : c1.dedup_key = c2.dedup_key) :
    dedup_context_chunks [c1, c2] =
      [{ c1 with
          «alias» := 0,
          reason := if c2.reason ≠ "" ∧ c1.reason ≠ c2.reason then
              (if c1.reason ≠ "" then c1.reason ++ "; " else c1.reason) ++ c2.reason
            else c1.reason }] := by
  simp only [dedup_context_chunks, List.foldl_cons, List.foldl_nil]
  have h1 : insertMerge [] c1.dedup_key c1 = [(c1.dedup_key, c1)] := rfl
  rw [h1]
  have h2 : insertMerge [(c1.dedup_key, c1)] c2.dedup_key c2 =
      [(c1.dedup_key, mergeReason c1 c2)] := by
    rw [insertMerge, if_neg ?_, if_pos hk.symm]
    rw [← hk]
    exact keyLt_irrefl _
  rw [h2]
  have h3 : renumberFrom 0 (sortByKey (List.map Prod.snd
      [(c1.dedup_key, mergeReason c1 c2)])) =
      [{ mergeReason c1 c2 with «alias» := 0 }] := rfl
  rw [h3]
  unfold mergeReason
  by_cases hcond : c2.reason ≠ "" ∧ c1.reason ≠ c2.reason
  · rw [if_pos hcond, if_pos hcond]
  · rw [if_neg hcond, if_neg hcond]

/-- Witness for the amended C6 theorem at concrete reasons `"a"` and `"b"`. -/
theorem c6_witness :
    (⟨"p", 0, [], 0, 0, "a"⟩ : ContextChunk).dedup_key =
      (⟨"p", 1, [], 0, 0, "b"⟩ : ContextChunk).dedup_key ∧
    dedup_context_chunks [⟨"p", 0, [], 0, 0, "a"⟩, ⟨"p", 1, [], 0, 0, "b"⟩] =
      [{ (⟨"p", 0, [], 0, 0, "a"⟩ : ContextChunk) with
          «alias» := 0,
          reason := if ("b" : String) ≠ "" ∧ ("a" : String) ≠ "b" then
              (if ("a" : String) ≠ "" then "a" ++ "; " else "a") ++ "b"
            else "a" }] :=
  ⟨by decide,
   c6_merge_iff_nonempty_and_ne ⟨"p", 0, [], 0, 0, "a"⟩ ⟨"p", 1, [], 0, 0, "b"⟩
     (by decide)⟩

end Luna
